import Mathlib

/-!
Verification development for the MetDecode deconvolution engine.

The definitions below are a shallow embedding of the Python sources
(`metdecode/model.py`, `metdecode/optimizer.py`, `run.py`).  Count matrices
are embedded as functions `Fin m → Fin n → ℚ`; numpy floating-point values
that may become non-finite are embedded as `Option ℚ`, with `none` standing
for a non-finite value (NaN or an infinity).
-/

/-- A numpy scalar: `some q` is a finite value, `none` a non-finite one
(NaN/Inf).  In `add_pseudo_counts` the only way a non-finite value can arise
from finite inputs is the division `0 / 0` (NaN), which then propagates. -/
abbrev NpVal := Option ℚ

/-- Addition on numpy scalars; non-finite operands propagate. -/
def nfAdd : NpVal → NpVal → NpVal
  | some a, some b => some (a + b)
  | _, _ => none

/-- Multiplication on numpy scalars; non-finite operands propagate. -/
def nfMul : NpVal → NpVal → NpVal
  | some a, some b => some (a * b)
  | _, _ => none

/-- Division on numpy scalars: division by zero is non-finite
(`0/0 = NaN`, `x/0 = ±Inf`); non-finite operands propagate. -/
def nfDiv : NpVal → NpVal → NpVal
  | some a, some b => if b = 0 then none else some (a / b)
  | _, _ => none

/-- `np.clip(v, lo, hi)` on a finite value: `min (max v lo) hi`. -/
def npClip (v lo hi : ℚ) : ℚ := min (max v lo) hi

/-- `np.clip` on a numpy scalar: NaN propagates through clipping. -/
def nfClip : NpVal → ℚ → ℚ → NpVal
  | some v, lo, hi => some (npClip v lo hi)
  | none, _, _ => none

namespace MetDecode

/-! ### `MetDecode.add_pseudo_counts` (model.py lines 70-107) -/

/-- Default pseudo-count constant `pc = 0.8` (model.py line 71). -/
def pc : ℚ := 4/5

/-- Sum of all entries of a matrix (`np.sum(a)`). -/
def matSum {m n : ℕ} (A : Fin m → Fin n → ℚ) : ℚ := ∑ i, ∑ j, A i j

/-- Row sums (`np.sum(a, axis=1)`). -/
def rowSum {m n : ℕ} (A : Fin m → Fin n → ℚ) (i : Fin m) : ℚ := ∑ j, A i j

/-- Column sums (`np.sum(a, axis=0)`). -/
def colSum {m n : ℕ} (A : Fin m → Fin n → ℚ) (j : Fin n) : ℚ := ∑ i, A i j

variable {m n : ℕ}

/-- `avg_meth = np.sum(methylated) / np.sum(depths)` (model.py line 74). -/
def avgMeth (M D : Fin m → Fin n → ℚ) : NpVal :=
  nfDiv (some (matSum M)) (some (matSum D))

/-- Row marginal mask (model.py line 79): the row's methylated total is 0 or
equals its depth total. -/
def rowDegenerate (M D : Fin m → Fin n → ℚ) (i : Fin m) : Prop :=
  rowSum M i = 0 ∨ rowSum M i = rowSum D i

instance (M D : Fin m → Fin n → ℚ) (i : Fin m) : Decidable (rowDegenerate M D i) := by
  unfold rowDegenerate; infer_instance

/-- `row_depths` after the masked `+= pc` (model.py line 80). -/
def rowDepthAdj (M D : Fin m → Fin n → ℚ) (i : Fin m) : ℚ :=
  if rowDegenerate M D i then rowSum D i + pc else rowSum D i

/-- `row_methylated` after the masked `+= pc * avg_meth` (model.py line 81). -/
def rowMethAdj (M D : Fin m → Fin n → ℚ) (i : Fin m) : NpVal :=
  if rowDegenerate M D i then nfAdd (some (rowSum M i)) (nfMul (some pc) (avgMeth M D))
  else some (rowSum M i)

/-- `row_meth = row_methylated / row_depths` (model.py line 82). -/
def rowMeth (M D : Fin m → Fin n → ℚ) (i : Fin m) : NpVal :=
  nfDiv (rowMethAdj M D i) (some (rowDepthAdj M D i))

/-- Column marginal mask (model.py line 87). -/
def colDegenerate (M D : Fin m → Fin n → ℚ) (j : Fin n) : Prop :=
  colSum M j = 0 ∨ colSum M j = colSum D j

instance (M D : Fin m → Fin n → ℚ) (j : Fin n) : Decidable (colDegenerate M D j) := by
  unfold colDegenerate; infer_instance

/-- `col_depths` after the masked `+= pc` (model.py line 88). -/
def colDepthAdj (M D : Fin m → Fin n → ℚ) (j : Fin n) : ℚ :=
  if colDegenerate M D j then colSum D j + pc else colSum D j

/-- `col_methylated` after the masked `+= pc * avg_meth` (model.py line 89). -/
def colMethAdj (M D : Fin m → Fin n → ℚ) (j : Fin n) : NpVal :=
  if colDegenerate M D j then nfAdd (some (colSum M j)) (nfMul (some pc) (avgMeth M D))
  else some (colSum M j)

/-- `col_meth = col_methylated / col_depths` (model.py line 90). -/
def colMeth (M D : Fin m → Fin n → ℚ) (j : Fin n) : NpVal :=
  nfDiv (colMethAdj M D j) (some (colDepthAdj M D j))

/-- `meth_prior = np.clip(np.outer(np.ones(len(row_meth)), col_meth), 0.01, 0.99)`
(model.py lines 93-94): entry `(i, j)` is `clip(1 * col_meth[j], 0.01, 0.99)`. -/
def methPrior (M D : Fin m → Fin n → ℚ) (_i : Fin m) (j : Fin n) : NpVal :=
  nfClip (nfMul (some 1) (colMeth M D j)) (1/100) (99/100)

/-- Cell mask (model.py line 96): the observed value is exactly 0 or equals
its depth. -/
def cellDegenerate (M D : Fin m → Fin n → ℚ) (i : Fin m) (j : Fin n) : Prop :=
  M i j = 0 ∨ M i j = D i j

instance (M D : Fin m → Fin n → ℚ) (i : Fin m) (j : Fin n) :
    Decidable (cellDegenerate M D i j) := by
  unfold cellDegenerate; infer_instance

/-- The methylated matrix returned by `add_pseudo_counts`
(`methylated[mask] += pc * meth_prior[mask]`, model.py line 97). -/
def methOut (M D : Fin m → Fin n → ℚ) (i : Fin m) (j : Fin n) : NpVal :=
  if cellDegenerate M D i j then
    nfAdd (some (M i j)) (nfMul (some pc) (methPrior M D i j))
  else some (M i j)

/-- The depth matrix returned by `add_pseudo_counts`
(`depths[mask] += pc`, model.py line 98). -/
def depthOut (M D : Fin m → Fin n → ℚ) (i : Fin m) (j : Fin n) : ℚ :=
  if cellDegenerate M D i j then D i j + pc else D i j

/-- Conjunction of the six `assert` statements of model.py lines 100-105:
every methylated output value is finite (not NaN/Inf) and strictly positive,
every depth value is finite (which holds by construction, `depthOut` being a
rational), and methylated is strictly below depth in every cell. -/
def assertsHold (M D : Fin m → Fin n → ℚ) : Prop :=
  ∀ (i : Fin m) (j : Fin n),
    ∃ q : ℚ, methOut M D i j = some q ∧ 0 < q ∧ q < depthOut M D i j

/-- The prior matrix as the specification words it: the outer product of the
per-row and per-column marginal rates, clipped to `[0.01, 0.99]`. -/
def specPrior (M D : Fin m → Fin n → ℚ) (i : Fin m) (j : Fin n) : NpVal :=
  nfClip (nfMul (rowMeth M D i) (colMeth M D j)) (1/100) (99/100)

end MetDecode

namespace MetDecode

/-! ### Facts used to settle claims about `add_pseudo_counts` -/

variable {m n : ℕ}

theorem matSum_nonneg {M : Fin m → Fin n → ℚ} (h : ∀ i j, 0 ≤ M i j) :
    0 ≤ matSum M :=
  Finset.sum_nonneg fun i _ => Finset.sum_nonneg fun j _ => h i j

theorem matSum_le_matSum {M D : Fin m → Fin n → ℚ} (h : ∀ i j, M i j ≤ D i j) :
    matSum M ≤ matSum D :=
  Finset.sum_le_sum fun i _ => Finset.sum_le_sum fun j _ => h i j

theorem colSum_nonneg {M : Fin m → Fin n → ℚ} (h : ∀ i j, 0 ≤ M i j) (j : Fin n) :
    0 ≤ colSum M j :=
  Finset.sum_nonneg fun i _ => h i j

theorem colSum_le_colSum {M D : Fin m → Fin n → ℚ} (h : ∀ i j, M i j ≤ D i j)
    (j : Fin n) : colSum M j ≤ colSum D j :=
  Finset.sum_le_sum fun i _ => h i j

theorem avgMeth_isSome {M D : Fin m → Fin n → ℚ} (hD : matSum D ≠ 0) :
    avgMeth M D = some (matSum M / matSum D) := by
  simp [avgMeth, nfDiv, hD]

/-- Under valid input with positive total depth, every column rate is a
finite rational. -/
theorem colMeth_isSome {M D : Fin m → Fin n → ℚ}
    (hnn : ∀ i j, 0 ≤ M i j) (hle : ∀ i j, M i j ≤ D i j)
    (hD : 0 < matSum D) (j : Fin n) :
    ∃ c : ℚ, colMeth M D j = some c := by
  have havg : avgMeth M D = some (matSum M / matSum D) := avgMeth_isSome (ne_of_gt hD)
  have hcolD : 0 ≤ colSum D j := by
    have h0 : ∀ i j, (0:ℚ) ≤ D i j := fun i j => le_trans (hnn i j) (hle i j)
    exact colSum_nonneg h0 j
  by_cases hdeg : colDegenerate M D j
  · refine ⟨(colSum M j + pc * (matSum M / matSum D)) / (colSum D j + pc), ?_⟩
    have hden : colSum D j + pc ≠ 0 := by
      have : (0:ℚ) < colSum D j + pc := by
        have : (0:ℚ) < pc := by norm_num [pc]
        linarith
      exact ne_of_gt this
    simp [colMeth, colMethAdj, colDepthAdj, hdeg, havg, nfAdd, nfMul, nfDiv, hden]
  · refine ⟨colSum M j / colSum D j, ?_⟩
    have hM0 : colSum M j ≠ 0 := by
      intro h; exact hdeg (Or.inl h)
    have hMpos : 0 < colSum M j := lt_of_le_of_ne (colSum_nonneg hnn j) (Ne.symm hM0)
    have hden : colSum D j ≠ 0 :=
      ne_of_gt (lt_of_lt_of_le hMpos (colSum_le_colSum hle j))
    simp [colMeth, colMethAdj, colDepthAdj, hdeg, nfDiv, hden]

/-- Under valid input with positive total depth, every prior entry is a
finite rational in `[0.01, 0.99]`. -/
theorem methPrior_bounds {M D : Fin m → Fin n → ℚ}
    (hnn : ∀ i j, 0 ≤ M i j) (hle : ∀ i j, M i j ≤ D i j)
    (hD : 0 < matSum D) (i : Fin m) (j : Fin n) :
    ∃ p : ℚ, methPrior M D i j = some p ∧ 1/100 ≤ p ∧ p ≤ 99/100 := by
  obtain ⟨c, hc⟩ := colMeth_isSome hnn hle hD j
  refine ⟨npClip c (1/100) (99/100), ?_, ?_, ?_⟩
  · simp [methPrior, hc, nfMul, nfClip]
  · exact le_min (le_max_right _ _) (by norm_num)
  · exact min_le_right _ _

end MetDecode

namespace MetDecode

/-! ### Concrete matrices used as counterexamples and witnesses -/

/-- The 1×1 all-zero count matrix (a shape-valid input: nonnegative and
`Methylated ≤ Depth` everywhere, but with zero total depth). -/
def zeroMat : Fin 1 → Fin 1 → ℚ := fun _ _ => 0

/-- 2×2 methylated counts `[[0, 2], [2, 2]]`. -/
def mtxM : Fin 2 → Fin 2 → ℚ := ![![0, 2], ![2, 2]]

/-- 2×2 depths `[[2, 2], [2, 2]]`. -/
def mtxD : Fin 2 → Fin 2 → ℚ := ![![2, 2], ![2, 2]]

/-- 1×1 methylated counts `[[1]]`. -/
def witM : Fin 1 → Fin 1 → ℚ := fun _ _ => 1

/-- 1×1 depths `[[2]]`. -/
def witD : Fin 1 → Fin 1 → ℚ := fun _ _ => 2

end MetDecode

namespace MetDecode

variable {m n : ℕ}

/-- Claim C1 fails as stated: the all-zero 1×1 pair is a valid input
(nonnegative, `Methylated ≤ Depth` elementwise), yet `add_pseudo_counts`
computes `avg_meth = 0/0 = NaN`, the NaN propagates into the repaired
methylated matrix, and the postcondition assertions fire. -/
theorem C1_counterexample :
    (∀ (i j : Fin 1), 0 ≤ zeroMat i j ∧ zeroMat i j ≤ zeroMat i j) ∧
    methOut zeroMat zeroMat 0 0 = none ∧
    ¬ assertsHold zeroMat zeroMat := by
  have hnone : methOut zeroMat zeroMat 0 0 = none := by
    norm_num [methOut, cellDegenerate, methPrior, nfClip, nfMul, nfAdd, colMeth,
      colMethAdj, colDepthAdj, colDegenerate, colSum, avgMeth, nfDiv, matSum,
      zeroMat, pc]
  refine ⟨fun i j => ⟨le_refl 0, le_refl 0⟩, hnone, fun h => ?_⟩
  obtain ⟨q, hq, -⟩ := h 0 0
  rw [hnone] at hq
  exact Option.noConfusion hq

/-- Claim C1 (amended): for every valid input pair (equal-shape nonnegative
matrices with `Methylated ≤ Depth` elementwise) whose total depth is
positive, `add_pseudo_counts` returns matrices where every methylated value
is finite and strictly positive, every depth value is finite, methylated is
strictly below depth in every cell, and no value is NaN or Inf — so the
internal postcondition assertions never fire. -/
theorem C1_pseudo_counts_postconditions (M D : Fin m → Fin n → ℚ)
    (hnn : ∀ i j, 0 ≤ M i j) (hle : ∀ i j, M i j ≤ D i j)
    (hD : 0 < matSum D) : assertsHold M D := by
  intro i j
  by_cases hdeg : cellDegenerate M D i j
  · obtain ⟨p, hp, hplo, hphi⟩ := methPrior_bounds hnn hle hD i j
    refine ⟨M i j + pc * p, ?_, ?_, ?_⟩
    · simp [methOut, hdeg, hp, nfMul, nfAdd]
    · have hpcp : (0:ℚ) < pc * p := by
        have : (0:ℚ) < pc := by norm_num [pc]
        nlinarith
      have := hnn i j
      linarith
    · have hlt : pc * p < pc := by
        have hpc : (0:ℚ) < pc := by norm_num [pc]
        nlinarith
      have := hle i j
      simp only [depthOut, hdeg, if_true]
      linarith
  · have hM0 : M i j ≠ 0 := fun h => hdeg (Or.inl h)
    have hMD : M i j ≠ D i j := fun h => hdeg (Or.inr h)
    refine ⟨M i j, by simp [methOut, hdeg], ?_, ?_⟩
    · exact lt_of_le_of_ne (hnn i j) (Ne.symm hM0)
    · simp only [depthOut, hdeg, if_false]
      exact lt_of_le_of_ne (hle i j) hMD

/-- Witness for the amended Claim C1 at the concrete valid pair
`Methylated = [[1]]`, `Depth = [[2]]`. -/
theorem C1_witness : assertsHold witM witD :=
  C1_pseudo_counts_postconditions witM witD
    (fun _ _ => by norm_num [witM])
    (fun _ _ => by norm_num [witM, witD])
    (by norm_num [matSum, witD])

/-- Claim C2 fails as stated: on `Methylated = [[0,2],[2,2]]`,
`Depth = [[2,2],[2,2]]` — a valid pair with a degenerate cell `(0,0)` — the
code's prior at `(0,0)` is `clip(1 · col_rate₀) = 1/2`, not the claim's
`clip(row_rate₀ · col_rate₀) = 1/4` (the outer product is taken with a ones
vector, model.py line 93), so the degenerate cell receives `pc · 1/2`, not
`pc · 1/4`. -/
theorem C2_counterexample :
    (∀ (i j : Fin 2), 0 ≤ mtxM i j ∧ mtxM i j ≤ mtxD i j) ∧
    cellDegenerate mtxM mtxD 0 0 ∧
    methPrior mtxM mtxD 0 0 = some (1/2) ∧
    specPrior mtxM mtxD 0 0 = some (1/4) ∧
    methOut mtxM mtxD 0 0 = some (2/5) ∧
    methOut mtxM mtxD 0 0 ≠
      nfAdd (some (mtxM 0 0)) (nfMul (some pc) (specPrior mtxM mtxD 0 0)) := by
  have hrow : rowMeth mtxM mtxD 0 = some (1/2) := by
    norm_num [rowMeth, rowMethAdj, rowDepthAdj, rowDegenerate, rowSum,
      nfDiv, mtxM, mtxD, Fin.sum_univ_two]
  have hcol : colMeth mtxM mtxD 0 = some (1/2) := by
    norm_num [colMeth, colMethAdj, colDepthAdj, colDegenerate, colSum,
      nfDiv, mtxM, mtxD, Fin.sum_univ_two]
  have hprior : methPrior mtxM mtxD 0 0 = some (1/2) := by
    norm_num [methPrior, hcol, nfMul, nfClip, npClip]
  have hspec : specPrior mtxM mtxD 0 0 = some (1/4) := by
    norm_num [specPrior, hrow, hcol, nfMul, nfClip, npClip]
  have hdeg : cellDegenerate mtxM mtxD 0 0 := by
    left; norm_num [mtxM]
  refine ⟨?_, hdeg, hprior, hspec, ?_, ?_⟩
  · intro i j
    fin_cases i <;> fin_cases j <;> norm_num [mtxM, mtxD]
  · rw [methOut, if_pos hdeg, hprior]
    norm_num [nfMul, nfAdd, mtxM, pc]
  · rw [methOut, if_pos hdeg, hprior, hspec]
    norm_num [nfMul, nfAdd, mtxM, pc]

/-- Claim C2 (amended): the prior rate matrix used by `add_pseudo_counts` is
the outer product of a ones vector and the per-column marginal methylation
rates, clipped to `[0.01, 0.99]` — `prior[i, j] = clip(col_rate[j], 0.01,
0.99)`, with no dependence on the per-row rates (computed but unused) — and
every cell whose observed methylated value is exactly 0 or exactly equals its
depth receives `pc · prior[i, j]` added to methylated and `pc` added to
depth, all other cells being left unchanged. -/
theorem C2_prior_and_update (M D : Fin m → Fin n → ℚ) (i : Fin m) (j : Fin n) :
    methPrior M D i j = nfClip (colMeth M D j) (1/100) (99/100) ∧
    (cellDegenerate M D i j →
      methOut M D i j = nfAdd (some (M i j)) (nfMul (some pc) (methPrior M D i j)) ∧
      depthOut M D i j = D i j + pc) ∧
    (¬ cellDegenerate M D i j →
      methOut M D i j = some (M i j) ∧ depthOut M D i j = D i j) := by
  refine ⟨?_, fun hdeg => ?_, fun hdeg => ?_⟩
  · cases h : colMeth M D j <;> simp [methPrior, nfMul, nfClip, h]
  · exact ⟨by rw [methOut, if_pos hdeg], by rw [depthOut, if_pos hdeg]⟩
  · exact ⟨by rw [methOut, if_neg hdeg], by rw [depthOut, if_neg hdeg]⟩

/-- Witness for the amended Claim C2 at the concrete pair
`Methylated = [[0,2],[2,2]]`, `Depth = [[2,2],[2,2]]`, cell `(0,0)`. -/
theorem C2_witness :
    methPrior mtxM mtxD 0 0 = nfClip (colMeth mtxM mtxD 0) (1/100) (99/100) ∧
    methOut mtxM mtxD 0 0 =
      nfAdd (some (mtxM 0 0)) (nfMul (some pc) (methPrior mtxM mtxD 0 0)) ∧
    depthOut mtxM mtxD 0 0 = mtxD 0 0 + pc := by
  have hdeg : cellDegenerate mtxM mtxD 0 0 := by
    left; norm_num [mtxM]
  exact ⟨(C2_prior_and_update mtxM mtxD 0 0).1,
    ((C2_prior_and_update mtxM mtxD 0 0).2.1 hdeg).1,
    ((C2_prior_and_update mtxM mtxD 0 0).2.1 hdeg).2⟩

end MetDecode

namespace MetDecode

/-!
### `MetDecode.nnls` and `_init_alpha_and_gamma` (model.py lines 109-150)

The cfDNA cohort and the atlas hold one marker-indexed row per entity, so
rows are `Fin n → ℚ` and a matrix is a `List` of rows.  The external scipy
`nnls` solver (a bounded active-set solver, not code of this repository) is
abstracted as a function `solve` from the current atlas to the stacked
per-sample nonnegative coefficient vectors; the cfDNA ratios and weights it
also reads are fixed over a run and absorbed into it.
-/

/-- Row normalization `alpha_hat /= alpha_hat.sum(axis=1)[:, np.newaxis]`
(model.py line 119). -/
def normalizeRows (sols : List (List ℚ)) : List (List ℚ) :=
  sols.map fun r => r.map fun x => x / r.sum

/-- `MetDecode.nnls` (model.py lines 109-120): the external per-sample scipy
solve followed by row normalization. -/
def nnlsEstimate {n : ℕ} (solve : List (Fin n → ℚ) → List (List ℚ))
    (atlas : List (Fin n → ℚ)) : List (List ℚ) :=
  normalizeRows (solve atlas)

/-- `alpha_hat += 1e-6` followed by
`alpha_hat /= np.sum(alpha_hat, axis=1)[:, np.newaxis]`
(model.py lines 127-128, repeated at lines 142-143). -/
def addEpsRenorm (alpha : List (List ℚ)) : List (List ℚ) :=
  alpha.map fun r =>
    (r.map fun x => x + 1/1000000).map fun x =>
      x / ((r.map fun x => x + 1/1000000).sum)

/-- Simplex restoration as the specification words it: floor each proportion
entry at `1e-6` (take the maximum with `1e-6`), then renormalize the row. -/
def specFloorRenorm (alpha : List (List ℚ)) : List (List ℚ) :=
  alpha.map fun r =>
    (r.map fun x => max x (1/1000000)).map fun x =>
      x / ((r.map fun x => max x (1/1000000)).sum)

/-- Column-wise minimum of a list of rows (`np.min(R_atlas, axis=0)`,
model.py line 130). -/
def colMin {n : ℕ} (atlas : List (Fin n → ℚ)) (j : Fin n) : ℚ :=
  match atlas with
  | [] => 0
  | r :: rest => rest.foldl (fun cur row => min cur (row j)) (r j)

/-- Column-wise maximum of a list of rows (`np.max(R_atlas, axis=0)`,
model.py line 131). -/
def colMax {n : ℕ} (atlas : List (Fin n → ℚ)) (j : Fin n) : ℚ :=
  match atlas with
  | [] => 0
  | r :: rest => rest.foldl (fun cur row => max cur (row j)) (r j)

/-- Insertion into a sorted list, for `np.sort`. -/
def insertAsc (x : ℚ) : List ℚ → List ℚ
  | [] => [x]
  | y :: ys => if x ≤ y then x :: y :: ys else y :: insertAsc x ys

/-- Ascending insertion sort, for `np.median`. -/
def sortAsc (l : List ℚ) : List ℚ := l.foldr insertAsc []

/-- `np.median` of a list: middle element of the sorted list for odd length,
average of the two middle elements for even length. -/
def npMedian (l : List ℚ) : ℚ :=
  if l.length % 2 = 1 then (sortAsc l).getD (l.length / 2) 0
  else ((sortAsc l).getD (l.length / 2 - 1) 0 + (sortAsc l).getD (l.length / 2) 0) / 2

/-- One entry of `np.dot(alpha_hat, R_atlas)` (model.py line 135): the
weighted reconstruction of sample `arow` at marker `j`. -/
def reconstructDot {n : ℕ} (arow : List ℚ) (atlas : List (Fin n → ℚ)) (j : Fin n) : ℚ :=
  (List.zipWith (fun a row => a * row j) arow atlas).sum

/-- Marker-wise median over samples of the residual
`np.dot(alpha_hat, R_atlas) - R_cfdna` (model.py lines 135-136). -/
def medResidual {n : ℕ} (alpha : List (List ℚ)) (atlas cfdna : List (Fin n → ℚ))
    (j : Fin n) : ℚ :=
  npMedian (List.zipWith (fun arow x => reconstructDot arow atlas j - x j) alpha cfdna)

/-- The synthetic profile row `r = lb + (residuals <= 0) * (ub - lb)`
(model.py lines 137-138). -/
def newTissueRow {n : ℕ} (lb ub med : Fin n → ℚ) (j : Fin n) : ℚ :=
  lb j + (if med j ≤ 0 then (1:ℚ) else 0) * (ub j - lb j)

/-- One iteration of the unknown-tissue loop (model.py lines 134-145):
append the synthetic row to the atlas and re-run the per-sample NNLS step
with the expanded atlas (followed by the `1e-6` shift and renormalization). -/
def initStep {n : ℕ} (solve : List (Fin n → ℚ) → List (List ℚ))
    (lb ub : Fin n → ℚ) (cfdna : List (Fin n → ℚ))
    (st : List (Fin n → ℚ) × List (List ℚ)) :
    List (Fin n → ℚ) × List (List ℚ) :=
  let atlas2 := st.1 ++ [newTissueRow lb ub (medResidual st.2 st.1 cfdna)]
  (atlas2, addEpsRenorm (nnlsEstimate solve atlas2))

/-- The unknown-tissue loop run `U` times. -/
def initLoop {n : ℕ} (solve : List (Fin n → ℚ) → List (List ℚ))
    (lb ub : Fin n → ℚ) (cfdna : List (Fin n → ℚ)) :
    ℕ → List (Fin n → ℚ) × List (List ℚ) → List (Fin n → ℚ) × List (List ℚ)
  | 0, st => st
  | u + 1, st => initLoop solve lb ub cfdna u (initStep solve lb ub cfdna st)

/-- `_init_alpha_and_gamma` (model.py lines 122-150), up to the final
elementwise `log`/`logit`: returns the possibly expanded atlas and the final
proportion matrix `alpha_hat`.  `lb`/`ub` are the column-wise extremes of
the original atlas, computed once before the loop (lines 130-131). -/
def initAlpha {n : ℕ} (solve : List (Fin n → ℚ) → List (List ℚ))
    (atlas0 cfdna : List (Fin n → ℚ)) (U : ℕ) :
    List (Fin n → ℚ) × List (List ℚ) :=
  initLoop solve (colMin atlas0) (colMax atlas0) cfdna U
    (atlas0, addEpsRenorm (nnlsEstimate solve atlas0))

end MetDecode

namespace MetDecode

/-! ### Facts about the initializer -/

theorem list_sum_map_div (r : List ℚ) (s : ℚ) :
    (r.map fun x => x / s).sum = r.sum / s := by
  induction r with
  | nil => simp
  | cons a t ih => simp [ih, add_div]

theorem list_sum_map_addc (r : List ℚ) (c : ℚ) :
    (r.map fun x => x + c).sum = r.sum + r.length * c := by
  induction r with
  | nil => simp
  | cons a t ih => simp [ih]; ring

/-- A row of `addEpsRenorm` applied to a nonempty nonnegative row is
nonnegative and sums to exactly 1. -/
theorem addEpsRenorm_row (r : List ℚ) (hne : r ≠ []) (hnn : ∀ x ∈ r, 0 ≤ x) :
    (∀ y ∈ (r.map fun x => x + 1/1000000).map
        (fun x => x / ((r.map fun x => x + 1/1000000).sum)), 0 ≤ y) ∧
    ((r.map fun x => x + 1/1000000).map
        (fun x => x / ((r.map fun x => x + 1/1000000).sum))).sum = 1 := by
  have hsum : (r.map fun x => x + 1/1000000).sum = r.sum + r.length * (1/1000000) :=
    list_sum_map_addc r _
  have hrs : 0 ≤ r.sum := List.sum_nonneg hnn
  have hlen : 1 ≤ r.length := by
    cases r with
    | nil => exact absurd rfl hne
    | cons a t => simp [Nat.succ_le_succ, Nat.zero_le]
  have hpos : 0 < (r.map fun x => x + 1/1000000).sum := by
    rw [hsum]
    have : (1:ℚ) * (1/1000000) ≤ (r.length : ℚ) * (1/1000000) := by
      have : (1:ℚ) ≤ (r.length : ℚ) := by exact_mod_cast hlen
      nlinarith
    nlinarith
  constructor
  · intro y hy
    simp only [List.mem_map] at hy
    obtain ⟨x2, ⟨x, hx, rfl⟩, rfl⟩ := hy
    exact div_nonneg (by linarith [hnn x hx]) (le_of_lt hpos)
  · rw [list_sum_map_div]
    exact div_self (ne_of_gt hpos)

/-- Every row produced by one NNLS estimate followed by the `1e-6` shift and
renormalization is nonnegative and sums to 1, whenever the external solver
returns nonempty nonnegative vectors with positive sum. -/
theorem addEpsRenorm_nnls_rows {n : ℕ}
    (solve : List (Fin n → ℚ) → List (List ℚ))
    (hsolve : ∀ A, ∀ r ∈ solve A, r ≠ [] ∧ (∀ x ∈ r, 0 ≤ x) ∧ 0 < r.sum)
    (A : List (Fin n → ℚ)) :
    ∀ row ∈ addEpsRenorm (nnlsEstimate solve A),
      (∀ x ∈ row, 0 ≤ x) ∧ row.sum = 1 := by
  intro row hrow
  simp only [addEpsRenorm, List.mem_map] at hrow
  obtain ⟨r, hr, rfl⟩ := hrow
  simp only [nnlsEstimate, normalizeRows, List.mem_map] at hr
  obtain ⟨r0, hr0, rfl⟩ := hr
  obtain ⟨hne0, hnn0, hsum0⟩ := hsolve A r0 hr0
  refine addEpsRenorm_row _ ?_ ?_
  · intro h
    exact hne0 (List.map_eq_nil_iff.mp h)
  · intro x hx
    simp only [List.mem_map] at hx
    obtain ⟨x0, hx0, rfl⟩ := hx
    exact div_nonneg (hnn0 x0 hx0) (le_of_lt hsum0)

theorem initLoop_alpha_simplex {n : ℕ}
    (solve : List (Fin n → ℚ) → List (List ℚ))
    (hsolve : ∀ A, ∀ r ∈ solve A, r ≠ [] ∧ (∀ x ∈ r, 0 ≤ x) ∧ 0 < r.sum)
    (lb ub : Fin n → ℚ) (cfdna : List (Fin n → ℚ)) (U : ℕ)
    (st : List (Fin n → ℚ) × List (List ℚ))
    (hst : ∀ row ∈ st.2, (∀ x ∈ row, 0 ≤ x) ∧ row.sum = 1) :
    ∀ row ∈ (initLoop solve lb ub cfdna U st).2,
      (∀ x ∈ row, 0 ≤ x) ∧ row.sum = 1 := by
  induction U generalizing st with
  | zero => exact hst
  | succ u ih =>
    exact ih (initStep solve lb ub cfdna st)
      (addEpsRenorm_nnls_rows solve hsolve _)

/-- Claim C3 fails as stated on the mechanism: the code restores the simplex
by adding `1e-6` to every entry and renormalizing (model.py lines 127-128),
not by flooring every entry at `1e-6` and renormalizing.  The two differ on
the (already normalized, nonnegative) NNLS output row `[0, 1]`. -/
theorem C3_counterexample :
    addEpsRenorm [[0, 1]] = [[1/1000002, 1000001/1000002]] ∧
    specFloorRenorm [[0, 1]] = [[1/1000001, 1000000/1000001]] ∧
    addEpsRenorm [[0, 1]] ≠ specFloorRenorm [[0, 1]] := by
  refine ⟨?_, ?_, ?_⟩ <;> norm_num [addEpsRenorm, specFloorRenorm]

/-- Claim C3 (amended): for every pseudo-count-corrected atlas and cfDNA
input, every `n_unknown_tissues ≥ 0`, and every behaviour of the external
scipy NNLS solver that returns nonempty nonnegative coefficient vectors of
positive sum, `_init_alpha_and_gamma` produces a proportion matrix `alpha`
(before its logarithm is taken) in which every entry is nonnegative and
every row sums exactly to 1 (hence within tolerance `1e-6`), the simplex
being restored after the per-sample NNLS solves by adding `1e-6` to every
proportion entry and renormalizing each row. -/
theorem C3_alpha_simplex {n : ℕ}
    (solve : List (Fin n → ℚ) → List (List ℚ))
    (atlas0 cfdna : List (Fin n → ℚ)) (U : ℕ)
    (hsolve : ∀ A, ∀ r ∈ solve A, r ≠ [] ∧ (∀ x ∈ r, 0 ≤ x) ∧ 0 < r.sum) :
    ∀ row ∈ (initAlpha solve atlas0 cfdna U).2,
      (∀ x ∈ row, 0 ≤ x) ∧ row.sum = 1 :=
  initLoop_alpha_simplex solve hsolve _ _ cfdna U _
    (addEpsRenorm_nnls_rows solve hsolve atlas0)

/-- A fixed external-solver behaviour used as a witness: it always returns a
single coefficient vector `[1, 0]`. -/
def witSolve : List (Fin 1 → ℚ) → List (List ℚ) := fun _ => [[1, 0]]

/-- A one-tissue, one-marker atlas used as a witness. -/
def witAtlas : List (Fin 1 → ℚ) := [fun _ => 1/2]

/-- A single cfDNA sample used as a witness. -/
def witCfdna : List (Fin 1 → ℚ) := [fun _ => 1/4]

/-- Witness for the amended Claim C3 at a concrete solver behaviour, atlas,
cfDNA cohort and `n_unknown_tissues = 1`: the resulting single proportion
row is `[1000001/1000002, 1/1000002]`, which is nonnegative and sums to 1. -/
theorem C3_witness :
    (∀ x ∈ [(1000001:ℚ)/1000002, 1/1000002], 0 ≤ x) ∧
    ([(1000001:ℚ)/1000002, 1/1000002] : List ℚ).sum = 1 := by
  have hmem : [(1000001:ℚ)/1000002, 1/1000002] ∈
      (initAlpha witSolve witAtlas witCfdna 1).2 := by
    norm_num [initAlpha, initLoop, initStep, addEpsRenorm, nnlsEstimate,
      normalizeRows, witSolve]
  exact C3_alpha_simplex witSolve witAtlas witCfdna 1 (by
    intro A r hr
    simp only [witSolve, List.mem_singleton] at hr
    subst hr
    refine ⟨by simp, ?_, by norm_num⟩
    intro x hx
    simp only [List.mem_cons, List.mem_singleton] at hx
    rcases hx with rfl | rfl | h
    · norm_num
    · norm_num
    · simp at h) _ hmem

end MetDecode

namespace MetDecode

/-! ### Facts about the unknown-tissue loop -/

theorem initLoop_succ {n : ℕ} (solve : List (Fin n → ℚ) → List (List ℚ))
    (lb ub : Fin n → ℚ) (cfdna : List (Fin n → ℚ)) (u : ℕ)
    (st : List (Fin n → ℚ) × List (List ℚ)) :
    initLoop solve lb ub cfdna (u + 1) st =
      initStep solve lb ub cfdna (initLoop solve lb ub cfdna u st) := by
  induction u generalizing st with
  | zero => rfl
  | succ v ih =>
    show initLoop solve lb ub cfdna (v + 1) (initStep solve lb ub cfdna st) = _
    rw [ih (initStep solve lb ub cfdna st)]
    rfl

theorem colMin_append_single {n : ℕ} (A : List (Fin n → ℚ)) (hne : A ≠ [])
    (r : Fin n → ℚ) (j : Fin n) :
    colMin (A ++ [r]) j = min (colMin A j) (r j) := by
  cases A with
  | nil => exact absurd rfl hne
  | cons a rest => simp [colMin, List.foldl_append]

theorem colMax_append_single {n : ℕ} (A : List (Fin n → ℚ)) (hne : A ≠ [])
    (r : Fin n → ℚ) (j : Fin n) :
    colMax (A ++ [r]) j = max (colMax A j) (r j) := by
  cases A with
  | nil => exact absurd rfl hne
  | cons a rest => simp [colMax, List.foldl_append]

theorem foldl_min_le_foldl_max {n : ℕ} (j : Fin n) (rest : List (Fin n → ℚ)) :
    ∀ x y : ℚ, x ≤ y →
      rest.foldl (fun cur row => min cur (row j)) x ≤
        rest.foldl (fun cur row => max cur (row j)) y := by
  induction rest with
  | nil => intro x y h; simpa using h
  | cons a t ih =>
    intro x y h
    exact ih _ _ (le_trans (min_le_left _ _) (le_trans h (le_max_left _ _)))

theorem colMin_le_colMax {n : ℕ} (A : List (Fin n → ℚ)) (hne : A ≠ []) (j : Fin n) :
    colMin A j ≤ colMax A j := by
  cases A with
  | nil => exact absurd rfl hne
  | cons a rest => exact foldl_min_le_foldl_max j rest (a j) (a j) le_rfl

theorem newTissueRow_cases {n : ℕ} (lb ub med : Fin n → ℚ) (j : Fin n) :
    newTissueRow lb ub med j = if med j ≤ 0 then ub j else lb j := by
  unfold newTissueRow
  by_cases h : med j ≤ 0 <;> simp [h]

/-- The column-wise extremes of the expanding atlas never change: every
appended synthetic row only contains values that are already column extremes
of the original atlas. -/
theorem initAlpha_atlas_extremes {n : ℕ} (solve : List (Fin n → ℚ) → List (List ℚ))
    (atlas0 cfdna : List (Fin n → ℚ)) (hne : atlas0 ≠ []) (k : ℕ) :
    (initAlpha solve atlas0 cfdna k).1 ≠ [] ∧
    (∀ j, colMin (initAlpha solve atlas0 cfdna k).1 j = colMin atlas0 j) ∧
    (∀ j, colMax (initAlpha solve atlas0 cfdna k).1 j = colMax atlas0 j) := by
  induction k with
  | zero => exact ⟨hne, fun j => rfl, fun j => rfl⟩
  | succ k ih =>
    obtain ⟨hne', hmin, hmax⟩ := ih
    have hstep : initAlpha solve atlas0 cfdna (k + 1) =
        initStep solve (colMin atlas0) (colMax atlas0) cfdna
          (initAlpha solve atlas0 cfdna k) :=
      initLoop_succ solve _ _ cfdna k _
    have hfst : (initAlpha solve atlas0 cfdna (k + 1)).1 =
        (initAlpha solve atlas0 cfdna k).1 ++
          [newTissueRow (colMin atlas0) (colMax atlas0)
            (medResidual (initAlpha solve atlas0 cfdna k).2
              (initAlpha solve atlas0 cfdna k).1 cfdna)] := by
      rw [hstep]; rfl
    refine ⟨?_, fun j => ?_, fun j => ?_⟩
    · rw [hfst]; simp
    · rw [hfst, colMin_append_single _ hne', hmin j, newTissueRow_cases]
      by_cases h : medResidual (initAlpha solve atlas0 cfdna k).2
          (initAlpha solve atlas0 cfdna k).1 cfdna j ≤ 0
      · simp [h, min_eq_left (colMin_le_colMax atlas0 hne j)]
      · simp [h]
    · rw [hfst, colMax_append_single _ hne', hmax j, newTissueRow_cases]
      by_cases h : medResidual (initAlpha solve atlas0 cfdna k).2
          (initAlpha solve atlas0 cfdna k).1 cfdna j ≤ 0
      · simp [h]
      · simp [h, max_eq_left (colMin_le_colMax atlas0 hne j)]

/-- Claim C4: each unknown-tissue iteration computes the per-sample residual
(weighted reconstruction minus observed ratios), takes its marker-wise
median across samples, builds the synthetic profile row by selecting, per
marker, the column-wise maximum of the current (possibly already expanded)
atlas rates where the median residual is ≤ 0 and the column-wise minimum
otherwise, appends the row to the atlas, and re-runs the per-sample NNLS
step (with the `1e-6` shift and renormalization) on the expanded atlas.
Although the code uses bounds computed once from the original atlas, every
appended row consists of column extremes, so the current atlas has the same
column-wise extremes. -/
theorem C4_unknown_tissue_step {n : ℕ} (solve : List (Fin n → ℚ) → List (List ℚ))
    (atlas0 cfdna : List (Fin n → ℚ)) (hne : atlas0 ≠ []) (k : ℕ) :
    (initAlpha solve atlas0 cfdna (k + 1)).1 =
      (initAlpha solve atlas0 cfdna k).1 ++
        [fun j => if medResidual (initAlpha solve atlas0 cfdna k).2
              (initAlpha solve atlas0 cfdna k).1 cfdna j ≤ 0
            then colMax (initAlpha solve atlas0 cfdna k).1 j
            else colMin (initAlpha solve atlas0 cfdna k).1 j] ∧
    (initAlpha solve atlas0 cfdna (k + 1)).2 =
      addEpsRenorm (nnlsEstimate solve ((initAlpha solve atlas0 cfdna (k + 1)).1)) := by
  obtain ⟨hne', hmin, hmax⟩ := initAlpha_atlas_extremes solve atlas0 cfdna hne k
  have hstep : initAlpha solve atlas0 cfdna (k + 1) =
      initStep solve (colMin atlas0) (colMax atlas0) cfdna
        (initAlpha solve atlas0 cfdna k) :=
    initLoop_succ solve _ _ cfdna k _
  constructor
  · rw [hstep]
    show (initAlpha solve atlas0 cfdna k).1 ++
        [newTissueRow (colMin atlas0) (colMax atlas0)
          (medResidual (initAlpha solve atlas0 cfdna k).2
            (initAlpha solve atlas0 cfdna k).1 cfdna)] = _
    congr 1
    refine congrArg (fun r => [r]) (funext fun j => ?_)
    rw [newTissueRow_cases, hmin j, hmax j]
  · rw [hstep]
    rfl

/-- Witness for Claim C4 at a concrete solver behaviour, atlas, cfDNA cohort
and the first loop iteration. -/
theorem C4_witness :
    (initAlpha witSolve witAtlas witCfdna 1).1 =
      (initAlpha witSolve witAtlas witCfdna 0).1 ++
        [fun j => if medResidual (initAlpha witSolve witAtlas witCfdna 0).2
              (initAlpha witSolve witAtlas witCfdna 0).1 witCfdna j ≤ 0
            then colMax (initAlpha witSolve witAtlas witCfdna 0).1 j
            else colMin (initAlpha witSolve witAtlas witCfdna 0).1 j] ∧
    (initAlpha witSolve witAtlas witCfdna 1).2 =
      addEpsRenorm (nnlsEstimate witSolve ((initAlpha witSolve witAtlas witCfdna 1).1)) :=
  C4_unknown_tissue_step witSolve witAtlas witCfdna (by simp [witAtlas]) 0

end MetDecode

/-!
### `Optimizer` (optimizer.py)

Loss values reaching the optimizer and the driver loop are Python floats;
the control flow only compares them, so they are embedded as an inductive
type with the float comparison semantics (every comparison involving NaN is
false).
-/

/-- A Python float as seen by comparisons: a finite rational, an infinity,
or NaN. -/
inductive PyFloat where
  | finite (q : ℚ)
  | pinf
  | ninf
  | nan
deriving DecidableEq

/-- Python `x <= y` on floats: false whenever either side is NaN. -/
def PyFloat.le : PyFloat → PyFloat → Bool
  | .nan, _ => false
  | _, .nan => false
  | .ninf, _ => true
  | _, .pinf => true
  | .pinf, _ => false
  | .finite a, .finite b => decide (a ≤ b)
  | .finite _, .ninf => false

/-- Python `x >= y` on floats: `y <= x`, hence also false on NaN. -/
def PyFloat.ge (x y : PyFloat) : Bool := PyFloat.le y x

namespace MetDecode

/-- The state of `Optimizer` (optimizer.py lines 28-45) relevant to
learning-rate adaptation: hyperparameters, the per-group learning rates
(`self.parameters[i]['lr']`, written back to the Adam groups at lines
72-73), the circular cursor, and the single loss recorded at the previous
`step` call (`self.last_loss`, initialized to `np.inf` and shared by all
groups). -/
structure OptimState where
  alphaUp : ℚ
  alphaDown : ℚ
  lrLb : ℚ
  lrUb : ℚ
  lrs : List ℚ
  cursor : ℕ
  lastLoss : PyFloat

/-- `Optimizer.__init__` with the default hyperparameters
`alpha_up=1.015`, `alpha_down=0.9`, `lr_lb=0`, `lr_ub=1e5`
(optimizer.py lines 28-45). -/
def optimInit : OptimState :=
  { alphaUp := 1015/1000, alphaDown := 9/10, lrLb := 0, lrUb := 100000,
    lrs := [], cursor := 0, lastLoss := PyFloat.pinf }

/-- `Optimizer.add` (optimizer.py lines 47-53): appends a parameter group
with its initial learning rate. -/
def optimAdd (s : OptimState) (lr : ℚ) : OptimState :=
  { s with lrs := s.lrs ++ [lr] }

/-- The learning-rate bookkeeping of `Optimizer.step` (optimizer.py lines
59-78): early return when the cursor is out of range, otherwise adapt the
rate of the group at cursor minus one (circular) by comparing `loss` with
the shared `last_loss`, clip it into `[lr_lb, lr_ub]`, write it back, record
`loss` as the new `last_loss`, and advance the cursor circularly. -/
def optimStep (s : OptimState) (loss : PyFloat) : OptimState :=
  if s.cursor ≥ s.lrs.length then s
  else
    let prev := (s.cursor + s.lrs.length - 1) % s.lrs.length
    let factor := if loss.le s.lastLoss then s.alphaUp else s.alphaDown
    let lr2 := npClip (s.lrs.getD prev 0 * factor) s.lrLb s.lrUb
    { s with lrs := s.lrs.set prev lr2,
             lastLoss := loss,
             cursor := (s.cursor + 1) % s.lrs.length }

/-- A sequence of `step` calls fed the given loss values. -/
def optimRun (s : OptimState) (losses : List PyFloat) : OptimState :=
  losses.foldl optimStep s

/-- One application of the increase factor under the default
hyperparameters, clipped into `[lr_lb, lr_ub] = [0, 1e5]`. -/
def upClip (x : ℚ) : ℚ := npClip (x * (1015/1000)) 0 100000

/-- One application of the decrease factor under the default
hyperparameters, clipped into `[lr_lb, lr_ub] = [0, 1e5]`. -/
def downClip (x : ℚ) : ℚ := npClip (x * (9/10)) 0 100000

/-- Learning rate after `N` calls that all apply the increase factor. -/
def nonincExpected (lr0 : ℚ) : ℕ → ℚ
  | 0 => lr0
  | t + 1 => upClip (nonincExpected lr0 t)

/-- Learning rate after `N` calls on a strictly increasing loss sequence:
the first call compares against the initial `+∞` reference and applies the
increase factor; every later call applies the decrease factor. -/
def incExpected (lr0 : ℚ) : ℕ → ℚ
  | 0 => lr0
  | 1 => upClip lr0
  | t + 2 => downClip (incExpected lr0 (t + 1))

/-- The optimizer state as the claim words it ("each group keeping an
independent reference loss"), with the default hyperparameters: reference
losses start at `+∞` per group and only the adapted group's reference is
updated. -/
structure SpecOptimState where
  lrs : List ℚ
  refs : List PyFloat
  cursor : ℕ

/-- Group registration in the per-group-reference model. -/
def specOptimAdd (s : SpecOptimState) (lr : ℚ) : SpecOptimState :=
  { s with lrs := s.lrs ++ [lr], refs := s.refs ++ [PyFloat.pinf] }

/-- `step` in the per-group-reference model claimed by C7. -/
def specOptimStep (s : SpecOptimState) (loss : PyFloat) : SpecOptimState :=
  if s.cursor ≥ s.lrs.length then s
  else
    let prev := (s.cursor + s.lrs.length - 1) % s.lrs.length
    let factor := if loss.le (s.refs.getD prev PyFloat.pinf)
      then (1015/1000 : ℚ) else 9/10
    let lr2 := npClip (s.lrs.getD prev 0 * factor) 0 100000
    { lrs := s.lrs.set prev lr2, refs := s.refs.set prev loss,
      cursor := (s.cursor + 1) % s.lrs.length }

/-- A sequence of `step` calls in the per-group-reference model. -/
def specOptimRun (s : SpecOptimState) (losses : List PyFloat) : SpecOptimState :=
  losses.foldl specOptimStep s

end MetDecode

namespace MetDecode

/-! ### Facts about the optimizer's learning-rate adaptation -/

theorem optimRun_append (s : OptimState) (l1 l2 : List PyFloat) :
    optimRun s (l1 ++ l2) = optimRun (optimRun s l1) l2 := by
  simp [optimRun, List.foldl_append]

theorem optimRun_single (s : OptimState) (x : PyFloat) :
    optimRun s [x] = optimStep s x := rfl

theorem optimStep_single (a d lb ub lr : ℚ) (L v : PyFloat) :
    optimStep { alphaUp := a, alphaDown := d, lrLb := lb, lrUb := ub,
                lrs := [lr], cursor := 0, lastLoss := L } v =
      { alphaUp := a, alphaDown := d, lrLb := lb, lrUb := ub,
        lrs := [npClip (lr * (if v.le L then a else d)) lb ub], cursor := 0,
        lastLoss := v } := by
  norm_num [optimStep]

theorem optimRun_noninc (q : ℕ → ℚ) (lr0 : ℚ) (N : ℕ)
    (hmono : ∀ i, i + 1 < N → q (i + 1) ≤ q i) :
    optimRun (optimAdd optimInit lr0)
        ((List.range N).map fun t => PyFloat.finite (q t)) =
      { alphaUp := 1015/1000, alphaDown := 9/10, lrLb := 0, lrUb := 100000,
        lrs := [nonincExpected lr0 N], cursor := 0,
        lastLoss := if N = 0 then PyFloat.pinf else PyFloat.finite (q (N - 1)) } := by
  induction N with
  | zero => simp [optimRun, optimAdd, optimInit, nonincExpected]
  | succ N ih =>
    have hmono2 : ∀ i, i + 1 < N → q (i + 1) ≤ q i := fun i hi => hmono i (by omega)
    rw [List.range_succ, List.map_append, optimRun_append, ih hmono2]
    simp only [List.map_cons, List.map_nil]
    rw [optimRun_single, optimStep_single]
    cases N with
    | zero => simp [PyFloat.le, nonincExpected, upClip]
    | succ M =>
      have hle : q (M + 1) ≤ q M := hmono M (by omega)
      simp [PyFloat.le, hle, nonincExpected, upClip]

theorem optimRun_strictinc (q : ℕ → ℚ) (lr0 : ℚ) (N : ℕ)
    (hmono : ∀ i, i + 1 < N → q i < q (i + 1)) :
    optimRun (optimAdd optimInit lr0)
        ((List.range N).map fun t => PyFloat.finite (q t)) =
      { alphaUp := 1015/1000, alphaDown := 9/10, lrLb := 0, lrUb := 100000,
        lrs := [incExpected lr0 N], cursor := 0,
        lastLoss := if N = 0 then PyFloat.pinf else PyFloat.finite (q (N - 1)) } := by
  induction N with
  | zero => simp [optimRun, optimAdd, optimInit, incExpected]
  | succ N ih =>
    have hmono2 : ∀ i, i + 1 < N → q i < q (i + 1) := fun i hi => hmono i (by omega)
    rw [List.range_succ, List.map_append, optimRun_append, ih hmono2]
    simp only [List.map_cons, List.map_nil]
    rw [optimRun_single, optimStep_single]
    cases N with
    | zero => simp [PyFloat.le, incExpected, upClip]
    | succ M =>
      have hlt : q M < q (M + 1) := hmono M (by omega)
      have hnle : ¬ q (M + 1) ≤ q M := not_le.mpr hlt
      simp [PyFloat.le, hnle, incExpected, downClip]

/-- Claim C6 fails as stated on the strictly-increasing half: the very first
`step` call compares the loss against the initial reference `np.inf`, so it
applies the increase factor even on a strictly increasing loss sequence.
With one group at rate 1 and losses `1, 2`, the code produces
`0.9135 = clip(1 · 1.015) · 0.9`, not the claimed `0.81 = (1 · 0.9) · 0.9`. -/
theorem C6_counterexample :
    (optimRun (optimAdd optimInit 1) [PyFloat.finite 1, PyFloat.finite 2]).lrs
      = [1827/2000] ∧
    (optimRun (optimAdd optimInit 1) [PyFloat.finite 1, PyFloat.finite 2]).lrs
      ≠ [npClip (npClip (1 * (9/10)) 0 100000 * (9/10)) 0 100000] := by
  constructor <;>
    norm_num [optimRun, optimAdd, optimInit, optimStep, npClip, PyFloat.le,
      min_def, max_def]

/-- Claim C6 (amended): for an `Optimizer` with exactly one registered
parameter group under the default hyperparameters, a sequence of `N` step
calls fed non-increasing loss values multiplies the group's learning rate by
the increase factor 1.015 on every call, clipped into `[lr_lb, lr_ub] =
[0, 1e5]`; fed strictly increasing loss values, the first call still applies
the increase factor (it compares against the initial `np.inf` reference) and
every later call multiplies the rate by the decrease factor 0.9, clipped
into `[lr_lb, lr_ub]`. -/
theorem C6_single_group_lr (N : ℕ) (q : ℕ → ℚ) (lr0 : ℚ) :
    ((∀ i, i + 1 < N → q (i + 1) ≤ q i) →
      (optimRun (optimAdd optimInit lr0)
          ((List.range N).map fun t => PyFloat.finite (q t))).lrs
        = [nonincExpected lr0 N]) ∧
    ((∀ i, i + 1 < N → q i < q (i + 1)) →
      (optimRun (optimAdd optimInit lr0)
          ((List.range N).map fun t => PyFloat.finite (q t))).lrs
        = [incExpected lr0 N]) := by
  constructor
  · intro h; rw [optimRun_noninc q lr0 N h]
  · intro h; rw [optimRun_strictinc q lr0 N h]

/-- Witness for the amended Claim C6: two calls on the constant sequence
`1, 1` (non-increasing) and two calls on the strictly increasing sequence
`0, 1`, from initial rate 1. -/
theorem C6_witness :
    (optimRun (optimAdd optimInit 1)
        ((List.range 2).map fun t => PyFloat.finite ((fun _ => (1:ℚ)) t))).lrs
      = [nonincExpected 1 2] ∧
    (optimRun (optimAdd optimInit 1)
        ((List.range 2).map fun t => PyFloat.finite ((fun t => (t:ℚ)) t))).lrs
      = [incExpected 1 2] :=
  ⟨(C6_single_group_lr 2 (fun _ => 1) 1).1 fun _ _ => le_refl 1,
   (C6_single_group_lr 2 (fun t => (t:ℚ)) 1).2 fun i _ => by
      exact_mod_cast Nat.lt_succ_self i⟩

end MetDecode

namespace MetDecode

/-- Claim C7 fails as stated: `Optimizer` keeps a single shared `last_loss`,
not one reference loss per group.  With two groups (rates 1 and 1) and
losses `1, 2`, the second call adapts group 0 by comparing 2 against the
shared reference 1 (recorded while adapting group 1) and decreases its rate
to 0.9; under the claimed per-group references, group 0's own reference
would still be `+∞` and its rate would increase to 1.015. -/
theorem C7_counterexample :
    (optimRun (optimAdd (optimAdd optimInit 1) 1)
        [PyFloat.finite 1, PyFloat.finite 2]).lrs = [9/10, 203/200] ∧
    (specOptimRun { lrs := [1, 1], refs := [PyFloat.pinf, PyFloat.pinf], cursor := 0 }
        [PyFloat.finite 1, PyFloat.finite 2]).lrs = [203/200, 203/200] ∧
    (optimRun (optimAdd (optimAdd optimInit 1) 1)
        [PyFloat.finite 1, PyFloat.finite 2]).lrs ≠
      (specOptimRun { lrs := [1, 1], refs := [PyFloat.pinf, PyFloat.pinf], cursor := 0 }
        [PyFloat.finite 1, PyFloat.finite 2]).lrs := by
  refine ⟨?_, ?_, ?_⟩ <;>
    norm_num [optimRun, optimAdd, optimInit, optimStep, specOptimRun,
      specOptimStep, npClip, PyFloat.le, min_def, max_def]

/-- Claim C7 (amended): on every `step(current_loss)` call with at least one
registered group (and the cursor in range), the learning-rate adaptation
targets the group at cursor minus one (circular) and compares `current_loss`
against the single shared reference loss recorded at the previous `step`
call (one `last_loss` for all groups, initialized to `+∞`), applying the
increase factor when `current_loss` is ≤ that reference and the decrease
factor otherwise, clipping the result into `[lr_lb, lr_ub]`, writing it back
as that group's active rate (all other groups' rates unchanged), and finally
updating the shared reference loss to `current_loss`. -/
theorem C7_step_shared_reference (s : OptimState) (loss : PyFloat)
    (hcur : s.cursor < s.lrs.length) :
    ((optimStep s loss).lrs.getD ((s.cursor + s.lrs.length - 1) % s.lrs.length) 0 =
      npClip (s.lrs.getD ((s.cursor + s.lrs.length - 1) % s.lrs.length) 0 *
        (if loss.le s.lastLoss then s.alphaUp else s.alphaDown)) s.lrLb s.lrUb) ∧
    (∀ k, k ≠ (s.cursor + s.lrs.length - 1) % s.lrs.length →
      (optimStep s loss).lrs.getD k 0 = s.lrs.getD k 0) ∧
    (optimStep s loss).lastLoss = loss ∧
    (optimStep s loss).cursor = (s.cursor + 1) % s.lrs.length := by
  have hnot : ¬ s.cursor ≥ s.lrs.length := not_le.mpr hcur
  have hlen : 0 < s.lrs.length := Nat.pos_of_ne_zero (by omega)
  have hprev : (s.cursor + s.lrs.length - 1) % s.lrs.length < s.lrs.length :=
    Nat.mod_lt _ hlen
  refine ⟨?_, fun k hk => ?_, ?_, ?_⟩
  · simp only [optimStep, if_neg hnot]
    simp [List.getD_eq_getElem?_getD, List.getElem?_set_self, hprev]
  · simp only [optimStep, if_neg hnot]
    simp [List.getD_eq_getElem?_getD, List.getElem?_set_ne (Ne.symm hk)]
  · simp [optimStep, if_neg hnot]
  · simp [optimStep, if_neg hnot]

/-- Witness for the amended Claim C7 on a concrete two-group state. -/
theorem C7_witness :
    ((optimStep (optimAdd (optimAdd optimInit 1) 1) (PyFloat.finite 1)).lrs.getD 1 0 =
      npClip ((optimAdd (optimAdd optimInit 1) 1).lrs.getD 1 0 *
        (if (PyFloat.finite 1).le (optimAdd (optimAdd optimInit 1) 1).lastLoss
          then (optimAdd (optimAdd optimInit 1) 1).alphaUp
          else (optimAdd (optimAdd optimInit 1) 1).alphaDown))
        (optimAdd (optimAdd optimInit 1) 1).lrLb
        (optimAdd (optimAdd optimInit 1) 1).lrUb) ∧
    (optimStep (optimAdd (optimAdd optimInit 1) 1) (PyFloat.finite 1)).lastLoss =
      PyFloat.finite 1 := by
  have h := C7_step_shared_reference (optimAdd (optimAdd optimInit 1) 1)
    (PyFloat.finite 1) (by norm_num [optimAdd, optimInit])
  have hidx : ((optimAdd (optimAdd optimInit 1) 1).cursor +
      (optimAdd (optimAdd optimInit 1) 1).lrs.length - 1) %
      (optimAdd (optimAdd optimInit 1) 1).lrs.length = 1 := by
    norm_num [optimAdd, optimInit]
  exact ⟨by simpa [hidx] using h.1, h.2.2.1⟩

end MetDecode

namespace MetDecode

/-!
### `MetDecode.deconvolute` (model.py lines 171-209)

The two parameter tensors are abstract types `A` (for `alpha_logit`) and
`G` (for `gamma_logit`); the per-iteration Adam updates — external torch
code whose gradients come from backpropagation through the objective — are
abstracted as update functions `uA`/`uG` indexed by the iteration.  The
objective `obj` returns a Python float.  The loop control flow (loss
history, best loss, stall counter, patience break, iteration cap) is
embedded literally.
-/

/-- The two parameter tensors created by `deconvolute`
(model.py lines 176-177). -/
structure DecParams (A G : Type) where
  alphaL : A
  gammaL : G

/-- Labels for the parameter groups the `Optimizer` may hold. -/
inductive GroupLabel where
  | alphaGroup
  | gammaGroup
deriving DecidableEq

/-- The groups registered by `deconvolute` (model.py lines 179-181): only
`alpha_logit` is added; the `optimizer.add([gamma_logit], 1e-3)` line is
commented out. -/
def deconvGroups : List GroupLabel := [GroupLabel.alphaGroup]

/-- `self.optimizers[self.cursor].step()` (optimizer.py lines 62-63 and 76):
no update when the cursor is out of range, otherwise the Adam update of the
group at the cursor is applied to that group's tensor only. -/
def groupUpdate {A G : Type} (uA : ℕ → A → A) (uG : ℕ → G → G)
    (groups : List GroupLabel) (cursor t : ℕ) (p : DecParams A G) :
    DecParams A G :=
  match groups.get? cursor with
  | some GroupLabel.alphaGroup => { p with alphaL := uA t p.alphaL }
  | some GroupLabel.gammaGroup => { p with gammaL := uG t p.gammaL }
  | none => p

/-- `self.cursor = (self.cursor + 1) % len(self.parameters)`
(optimizer.py line 78), skipped by the early return of line 62-63. -/
def cursorAdvance (groups : List GroupLabel) (cursor : ℕ) : ℕ :=
  if cursor ≥ groups.length then cursor else (cursor + 1) % groups.length

/-- The loop state of `deconvolute`: iterations executed, the two tensors,
the optimizer cursor, `best_loss` (initially `np.inf`),
`n_steps_without_improvement`, and the recorded loss history. -/
structure RunState (A G : Type) where
  t : ℕ
  params : DecParams A G
  cursor : ℕ
  best : PyFloat
  stall : ℕ
  hist : List PyFloat

/-- The optimization loop of `deconvolute` (model.py lines 183-205), fuelled
by the remaining iteration budget: while iterations remain, compute the
loss, record it, apply the optimizer step, then either reset the stall
counter on a strict improvement or increment it and break once it reaches
`patience`. -/
def deconvGo {A G : Type} (uA : ℕ → A → A) (uG : ℕ → G → G)
    (obj : A → G → PyFloat) (groups : List GroupLabel)
    (patience maxIter : ℕ) : ℕ → RunState A G → RunState A G
  | 0, s => s
  | fuel + 1, s =>
    if s.t ≥ maxIter then s
    else
      let l := obj s.params.alphaL s.params.gammaL
      let p2 := groupUpdate uA uG groups s.cursor s.t s.params
      let c2 := cursorAdvance groups s.cursor
      let hist2 := s.hist ++ [l]
      if l.ge s.best then
        if s.stall + 1 ≥ patience then
          { t := s.t + 1, params := p2, cursor := c2, best := s.best,
            stall := s.stall + 1, hist := hist2 }
        else
          deconvGo uA uG obj groups patience maxIter fuel
            { t := s.t + 1, params := p2, cursor := c2, best := s.best,
              stall := s.stall + 1, hist := hist2 }
      else
        deconvGo uA uG obj groups patience maxIter fuel
          { t := s.t + 1, params := p2, cursor := c2, best := l,
            stall := 0, hist := hist2 }

/-- A full `deconvolute` run: fresh state, only `alpha_logit` registered,
at most `max_n_iter` iterations. -/
def deconvRun {A G : Type} (uA : ℕ → A → A) (uG : ℕ → G → G)
    (obj : A → G → PyFloat) (patience maxIter : ℕ) (a0 : A) (g0 : G) :
    RunState A G :=
  deconvGo uA uG obj deconvGroups patience maxIter maxIter
    { t := 0, params := { alphaL := a0, gammaL := g0 }, cursor := 0,
      best := PyFloat.pinf, stall := 0, hist := [] }

/-- The tensors and cursor after `t` optimizer steps, had the loop run
without breaking. -/
def stateSeq {A G : Type} (uA : ℕ → A → A) (uG : ℕ → G → G)
    (groups : List GroupLabel) (p0 : DecParams A G) : ℕ → DecParams A G × ℕ
  | 0 => (p0, 0)
  | t + 1 =>
    ((groupUpdate uA uG groups (stateSeq uA uG groups p0 t).2 t
        (stateSeq uA uG groups p0 t).1),
     cursorAdvance groups (stateSeq uA uG groups p0 t).2)

/-- The loss the objective produces at iteration `t`. -/
def lossSeq {A G : Type} (uA : ℕ → A → A) (uG : ℕ → G → G)
    (obj : A → G → PyFloat) (groups : List GroupLabel)
    (p0 : DecParams A G) (t : ℕ) : PyFloat :=
  obj ((stateSeq uA uG groups p0 t).1).alphaL ((stateSeq uA uG groups p0 t).1).gammaL

/-- `best_loss` before iteration `t`. -/
def bestSeq (L : ℕ → PyFloat) : ℕ → PyFloat
  | 0 => PyFloat.pinf
  | t + 1 => if (L t).ge (bestSeq L t) then bestSeq L t else L t

/-- `n_steps_without_improvement` before iteration `t`. -/
def stallSeq (L : ℕ → PyFloat) : ℕ → ℕ
  | 0 => 0
  | t + 1 => if (L t).ge (bestSeq L t) then stallSeq L t + 1 else 0

/-- Iteration `t` hits the patience break. -/
def breakAt (L : ℕ → PyFloat) (patience t : ℕ) : Prop :=
  (L t).ge (bestSeq L t) = true ∧ patience ≤ stallSeq L t + 1

instance (L : ℕ → PyFloat) (patience t : ℕ) : Decidable (breakAt L patience t) := by
  unfold breakAt; infer_instance

/-- The full loop state before iteration `j`, had no break occurred yet. -/
def runStateAt {A G : Type} (uA : ℕ → A → A) (uG : ℕ → G → G)
    (obj : A → G → PyFloat) (groups : List GroupLabel)
    (p0 : DecParams A G) (j : ℕ) : RunState A G :=
  { t := j, params := (stateSeq uA uG groups p0 j).1,
    cursor := (stateSeq uA uG groups p0 j).2,
    best := bestSeq (lossSeq uA uG obj groups p0) j,
    stall := stallSeq (lossSeq uA uG obj groups p0) j,
    hist := (List.range j).map (lossSeq uA uG obj groups p0) }

end MetDecode

namespace MetDecode

/-! ### Characterization of the optimization loop -/

theorem pyFinite_ge_pinf (a : ℚ) : (PyFloat.finite a).ge PyFloat.pinf = false := rfl

theorem pyFinite_ge_finite (a b : ℚ) :
    (PyFloat.finite a).ge (PyFloat.finite b) = decide (b ≤ a) := rfl

section DeconvFacts

variable {A G : Type} (uA : ℕ → A → A) (uG : ℕ → G → G)
  (obj : A → G → PyFloat) (groups : List GroupLabel) (p0 : DecParams A G)
  (patience maxIter : ℕ)

theorem runStateAt_zero :
    runStateAt uA uG obj groups p0 0 =
      { t := 0, params := p0, cursor := 0, best := PyFloat.pinf, stall := 0,
        hist := [] } := rfl

theorem deconvGo_step_nobreak (fuel j : ℕ) (hj : j < maxIter)
    (hnb : ¬ breakAt (lossSeq uA uG obj groups p0) patience j) :
    deconvGo uA uG obj groups patience maxIter (fuel + 1)
        (runStateAt uA uG obj groups p0 j) =
      deconvGo uA uG obj groups patience maxIter fuel
        (runStateAt uA uG obj groups p0 (j + 1)) := by
  rw [deconvGo]
  simp only [runStateAt]
  rw [if_neg (show ¬ (j ≥ maxIter) by omega)]
  rw [show obj (stateSeq uA uG groups p0 j).1.alphaL
      (stateSeq uA uG groups p0 j).1.gammaL = lossSeq uA uG obj groups p0 j from rfl]
  by_cases hge : (lossSeq uA uG obj groups p0 j).ge
      (bestSeq (lossSeq uA uG obj groups p0) j) = true
  · have hnp : ¬ (patience ≤ stallSeq (lossSeq uA uG obj groups p0) j + 1) :=
      fun hp => hnb ⟨hge, hp⟩
    rw [if_pos hge, if_neg (show ¬ (stallSeq (lossSeq uA uG obj groups p0) j + 1 ≥ patience)
      from hnp)]
    congr 1
    simp [runStateAt, stateSeq, bestSeq, stallSeq, hge, List.range_succ]
  · have hge2 : ((lossSeq uA uG obj groups p0 j).ge
        (bestSeq (lossSeq uA uG obj groups p0) j)) = false := by
      simpa using hge
    rw [if_neg hge]
    congr 1
    simp [runStateAt, stateSeq, bestSeq, stallSeq, hge2, List.range_succ]

theorem deconvGo_step_break (fuel j : ℕ) (hj : j < maxIter)
    (hb : breakAt (lossSeq uA uG obj groups p0) patience j) :
    (deconvGo uA uG obj groups patience maxIter (fuel + 1)
        (runStateAt uA uG obj groups p0 j)).t = j + 1 := by
  rw [deconvGo]
  simp only [runStateAt]
  rw [if_neg (show ¬ (j ≥ maxIter) by omega)]
  rw [show obj (stateSeq uA uG groups p0 j).1.alphaL
      (stateSeq uA uG groups p0 j).1.gammaL = lossSeq uA uG obj groups p0 j from rfl]
  rw [if_pos hb.1, if_pos (show stallSeq (lossSeq uA uG obj groups p0) j + 1 ≥ patience
    from hb.2)]

theorem deconvGo_t_first_break :
    ∀ (fuel j jb : ℕ), j ≤ jb → jb < j + fuel → jb < maxIter →
      (∀ i, j ≤ i → i < jb → ¬ breakAt (lossSeq uA uG obj groups p0) patience i) →
      breakAt (lossSeq uA uG obj groups p0) patience jb →
      (deconvGo uA uG obj groups patience maxIter fuel
          (runStateAt uA uG obj groups p0 j)).t = jb + 1 := by
  intro fuel
  induction fuel with
  | zero => intro j jb h1 h2 _ _ _; omega
  | succ f ih =>
    intro j jb hj1 hj2 hjm hnone hb
    rcases eq_or_lt_of_le hj1 with rfl | hlt
    · exact deconvGo_step_break uA uG obj groups p0 patience maxIter f j hjm hb
    · have hjm2 : j < maxIter := lt_of_le_of_lt hj1 hjm
      rw [deconvGo_step_nobreak uA uG obj groups p0 patience maxIter f j hjm2
        (hnone j le_rfl hlt)]
      exact ih (j + 1) jb hlt (by omega) hjm
        (fun i h1 h2 => hnone i (by omega) h2) hb

end DeconvFacts

end MetDecode

namespace MetDecode

theorem bestSeq_succ_of_ge (L : ℕ → PyFloat) (t : ℕ)
    (h : (L t).ge (bestSeq L t) = true) : bestSeq L (t + 1) = bestSeq L t := by
  simp [bestSeq, h]

theorem bestSeq_succ_of_lt (L : ℕ → PyFloat) (t : ℕ)
    (h : (L t).ge (bestSeq L t) = false) : bestSeq L (t + 1) = L t := by
  simp [bestSeq, h]

theorem stallSeq_succ_of_ge (L : ℕ → PyFloat) (t : ℕ)
    (h : (L t).ge (bestSeq L t) = true) : stallSeq L (t + 1) = stallSeq L t + 1 := by
  simp [stallSeq, h]

theorem stallSeq_succ_of_lt (L : ℕ → PyFloat) (t : ℕ)
    (h : (L t).ge (bestSeq L t) = false) : stallSeq L (t + 1) = 0 := by
  simp [stallSeq, h]

/-- For a finite-valued loss sequence, `best_loss` before a positive
iteration is the minimum of the losses seen so far. -/
theorem bestSeq_prefix_min (L : ℕ → PyFloat) (q : ℕ → ℚ)
    (hfin : ∀ t, L t = PyFloat.finite (q t)) :
    ∀ t, 0 < t →
      ∃ m, m < t ∧ bestSeq L t = PyFloat.finite (q m) ∧ ∀ i, i < t → q m ≤ q i := by
  intro t
  induction t with
  | zero => omega
  | succ t ih =>
    intro _
    rcases Nat.eq_zero_or_pos t with h0 | hpos
    · subst h0
      have hge : (L 0).ge (bestSeq L 0) = false := by
        rw [hfin 0]; exact pyFinite_ge_pinf (q 0)
      refine ⟨0, Nat.zero_lt_one, ?_, ?_⟩
      · rw [bestSeq_succ_of_lt L 0 hge, hfin 0]
      · intro i hi
        interval_cases i
        exact le_refl _
    · obtain ⟨m, hm, hbm, hmin⟩ := ih hpos
      by_cases hge : (L t).ge (bestSeq L t) = true
      · have hqmt : q m ≤ q t := by
          rw [hbm, hfin t, pyFinite_ge_finite] at hge
          simpa using hge
        refine ⟨m, by omega, ?_, ?_⟩
        · rw [bestSeq_succ_of_ge L t hge, hbm]
        · intro i hi
          rcases Nat.lt_or_ge i t with h | h
          · exact hmin i h
          · have : i = t := by omega
            subst this; exact hqmt
      · have hgef : (L t).ge (bestSeq L t) = false := by simpa using hge
        have hqtm : q t < q m := by
          rw [hbm, hfin t, pyFinite_ge_finite] at hgef
          simpa using hgef
        refine ⟨t, Nat.lt_succ_self t, ?_, ?_⟩
        · rw [bestSeq_succ_of_lt L t hgef, hfin t]
        · intro i hi
          rcases Nat.lt_or_ge i t with h | h
          · exact le_of_lt (lt_of_lt_of_le hqtm (hmin i h))
          · have : i = t := by omega
            subst this; exact le_refl _

/-- At the iteration attaining a strictly smaller loss than every earlier
one, the non-improvement test is false. -/
theorem ge_best_false_at_min (L : ℕ → PyFloat) (q : ℕ → ℚ)
    (hfin : ∀ t, L t = PyFloat.finite (q t)) (k : ℕ)
    (hbest : ∀ i, i < k → q k < q i) :
    (L k).ge (bestSeq L k) = false := by
  rcases Nat.eq_zero_or_pos k with h0 | hpos
  · subst h0
    rw [hfin 0]; exact pyFinite_ge_pinf (q 0)
  · obtain ⟨m, hm, hbm, _⟩ := bestSeq_prefix_min L q hfin k hpos
    rw [hbm, hfin k, pyFinite_ge_finite]
    simpa using not_le.mpr (hbest m hm)

/-- After the best iteration `k`, the best loss stays `q k` and the stall
counter counts the iterations since `k`. -/
theorem stall_after_best (L : ℕ → PyFloat) (q : ℕ → ℚ)
    (hfin : ∀ t, L t = PyFloat.finite (q t)) (k : ℕ)
    (hbest : ∀ i, i < k → q k < q i) (hlater : ∀ i, k < i → q k ≤ q i) :
    ∀ d, bestSeq L (k + 1 + d) = PyFloat.finite (q k) ∧ stallSeq L (k + 1 + d) = d := by
  have hgek : (L k).ge (bestSeq L k) = false := ge_best_false_at_min L q hfin k hbest
  intro d
  induction d with
  | zero =>
    constructor
    · rw [show k + 1 + 0 = k + 1 from rfl, bestSeq_succ_of_lt L k hgek, hfin k]
    · rw [show k + 1 + 0 = k + 1 from rfl, stallSeq_succ_of_lt L k hgek]
  | succ d ihd =>
    obtain ⟨hb, hs⟩ := ihd
    have hge : (L (k + 1 + d)).ge (bestSeq L (k + 1 + d)) = true := by
      rw [hb, hfin (k + 1 + d), pyFinite_ge_finite]
      simpa using hlater (k + 1 + d) (by omega)
    constructor
    · show bestSeq L ((k + 1 + d) + 1) = _
      rw [bestSeq_succ_of_ge L (k + 1 + d) hge, hb]
    · show stallSeq L ((k + 1 + d) + 1) = d + 1
      rw [stallSeq_succ_of_ge L (k + 1 + d) hge, hs]

end MetDecode

namespace MetDecode

/-- Claim C5: with patience `P`, if the best (smallest) loss of the run is
observed at iteration `k` (strictly below every earlier loss, with no later
iteration strictly smaller) and the run does reach iteration `k` (no earlier
patience break), then the optimization loop of `deconvolute` executes
exactly iterations `0 … k + P` — it terminates at iteration `k + P` rather
than running to `max_n_iter` — provided `k + P < max_n_iter`: every
non-improving iteration increments the stall counter, a strictly improving
iteration resets it and records the new best, and the loop breaks as soon
as the counter reaches `P`.  Losses are assumed finite. -/
theorem C5_early_stopping {A G : Type} (uA : ℕ → A → A) (uG : ℕ → G → G)
    (obj : A → G → PyFloat) (patience maxIter k : ℕ) (q : ℕ → ℚ)
    (a0 : A) (g0 : G)
    (hfin : ∀ t, lossSeq uA uG obj deconvGroups ⟨a0, g0⟩ t = PyFloat.finite (q t))
    (hbest : ∀ i, i < k → q k < q i)
    (hlater : ∀ i, k < i → q k ≤ q i)
    (hreach : k < (deconvRun uA uG obj patience maxIter a0 g0).t)
    (hbound : k + patience < maxIter) (hP : 0 < patience) :
    (deconvRun uA uG obj patience maxIter a0 g0).t = k + patience + 1 := by
  have hrun : deconvRun uA uG obj patience maxIter a0 g0 =
      deconvGo uA uG obj deconvGroups patience maxIter maxIter
        (runStateAt uA uG obj deconvGroups ⟨a0, g0⟩ 0) := rfl
  have hnb_lt : ∀ i, i < k →
      ¬ breakAt (lossSeq uA uG obj deconvGroups ⟨a0, g0⟩) patience i := by
    intro i hik hbi
    have hex : ∃ j, breakAt (lossSeq uA uG obj deconvGroups ⟨a0, g0⟩) patience j :=
      ⟨i, hbi⟩
    have hjb := Nat.find_spec hex
    have hjble : Nat.find hex ≤ i := Nat.find_min' hex hbi
    have hres := deconvGo_t_first_break uA uG obj deconvGroups
      (⟨a0, g0⟩ : DecParams A G) patience maxIter maxIter 0 (Nat.find hex)
      (Nat.zero_le _) (by omega) (by omega)
      (fun x _ hx => Nat.find_min hex hx) hjb
    rw [hrun] at hreach
    omega
  have hnbk : ¬ breakAt (lossSeq uA uG obj deconvGroups ⟨a0, g0⟩) patience k := by
    intro hb
    have hf := ge_best_false_at_min (lossSeq uA uG obj deconvGroups ⟨a0, g0⟩)
      q hfin k hbest
    rw [hb.1] at hf
    exact Bool.noConfusion hf
  have hstall := stall_after_best (lossSeq uA uG obj deconvGroups ⟨a0, g0⟩)
    q hfin k hbest hlater
  have hnb_mid : ∀ i, k < i → i < k + patience →
      ¬ breakAt (lossSeq uA uG obj deconvGroups ⟨a0, g0⟩) patience i := by
    intro i h1 h2 hb
    have hd : k + 1 + (i - k - 1) = i := by omega
    have hs := (hstall (i - k - 1)).2
    rw [hd] at hs
    have := hb.2
    omega
  have hbP : breakAt (lossSeq uA uG obj deconvGroups ⟨a0, g0⟩) patience
      (k + patience) := by
    have h1 := (hstall (patience - 1)).1
    have h2 := (hstall (patience - 1)).2
    have he : k + 1 + (patience - 1) = k + patience := by omega
    rw [he] at h1 h2
    refine ⟨?_, by omega⟩
    rw [h1, hfin (k + patience), pyFinite_ge_finite]
    simpa using hlater (k + patience) (by omega)
  have hnone : ∀ i, 0 ≤ i → i < k + patience →
      ¬ breakAt (lossSeq uA uG obj deconvGroups ⟨a0, g0⟩) patience i := by
    intro i _ hi
    rcases lt_trichotomy i k with h | h | h
    · exact hnb_lt i h
    · subst h; exact hnbk
    · exact hnb_mid i h hi
  rw [hrun]
  exact deconvGo_t_first_break uA uG obj deconvGroups ⟨a0, g0⟩ patience maxIter
    maxIter 0 (k + patience) (Nat.zero_le _) (by omega) (by omega) hnone hbP

/-- Witness for Claim C5: constant finite losses, patience 2, cap 5 — the
best loss is observed at iteration 0 and the loop stops at iteration 2,
having executed 3 iterations. -/
theorem C5_witness :
    (deconvRun (fun _ (a : Unit) => a) (fun _ (g : Unit) => g)
        (fun _ _ => PyFloat.finite 1) 2 5 () ()).t = 0 + 2 + 1 :=
  C5_early_stopping (fun _ a => a) (fun _ g => g) (fun _ _ => PyFloat.finite 1)
    2 5 0 (fun _ => 1) () ()
    (fun _ => rfl)
    (fun i hi => absurd hi (Nat.not_lt_zero i))
    (fun _ _ => le_refl 1)
    (by decide)
    (by decide)
    (by decide)

theorem deconvGo_gamma_invariant {A G : Type} (uA : ℕ → A → A) (uG : ℕ → G → G)
    (obj : A → G → PyFloat) (patience maxIter : ℕ) :
    ∀ (fuel : ℕ) (s : RunState A G),
      (deconvGo uA uG obj deconvGroups patience maxIter fuel s).params.gammaL =
        s.params.gammaL := by
  intro fuel
  induction fuel with
  | zero => intro s; rfl
  | succ f ih =>
    intro s
    have hupd : (groupUpdate uA uG deconvGroups s.cursor s.t s.params).gammaL =
        s.params.gammaL := by
      rcases s.cursor with _ | c <;> simp [groupUpdate, deconvGroups]
    rw [deconvGo]
    by_cases hT : s.t ≥ maxIter
    · rw [if_pos hT]
    · rw [if_neg hT]
      dsimp only
      split
      · split
        · exact hupd
        · rw [ih]; exact hupd
      · rw [ih]; exact hupd

/-- Claim C8: throughout a `deconvolute` run in the default configuration,
`gamma_logit` is never modified: only `alpha_logit` is registered with the
optimizer (model.py lines 180-181), so whatever the per-iteration Adam
updates and the objective do, the final `gamma_logit` still equals the value
produced by the initializer.  (The gradient of `gamma_logit` is computed by
`loss.backward()` each iteration but never applied; gradient bookkeeping is
internal to torch and outside this embedding.) -/
theorem C8_gamma_never_updated {A G : Type} (uA : ℕ → A → A) (uG : ℕ → G → G)
    (obj : A → G → PyFloat) (patience maxIter : ℕ) (a0 : A) (g0 : G) :
    (deconvRun uA uG obj patience maxIter a0 g0).params.gammaL = g0 :=
  deconvGo_gamma_invariant uA uG obj patience maxIter maxIter _

/-- Claim C9 describes required behaviour the code does not implement: fed a
NaN loss from iteration 0 (with `max_n_iter = 3`, patience 1000), the loop
of `deconvolute` does not abort — it executes all 3 iterations (NaN even
resets the stall counter, since `NaN >= best` is false) and returns
normally, with the NaN losses recorded in the history. -/
theorem C9_nan_loss_not_aborted :
    (deconvRun (fun _ (a : Unit) => a) (fun _ (g : Unit) => g)
        (fun _ _ => PyFloat.nan) 1000 3 () ()).t = 3 ∧
    (deconvRun (fun _ (a : Unit) => a) (fun _ (g : Unit) => g)
        (fun _ _ => PyFloat.nan) 1000 3 () ()).hist =
      [PyFloat.nan, PyFloat.nan, PyFloat.nan] := by
  constructor <;> rfl

end MetDecode

namespace MetDecode

/-! ### The CLI entry point `run.py` and the `beta` option -/

/-- The configuration a `MetDecode` instance keeps from its constructor
(model.py lines 38-55). -/
structure EngineConfig where
  beta : ℚ
  nUnknownTissues : ℕ

/-- `MetDecode.__init__`'s keyword arguments: `none` stands for an argument
not passed at the call site, in which case the default `beta = 1.0` applies
(model.py line 44). -/
def mkEngineConfig (betaArg : Option ℚ) (nUnknown : ℕ) : EngineConfig :=
  { beta := betaArg.getD 1, nUnknownTissues := nUnknown }

/-- The default of the CLI option `-beta` (run.py lines 54-59): 0.5,
accepted only when ≥ 0. -/
def cliBetaDefault : ℚ := 1/2

/-- The model construction of run.py line 97: `MetDecode(M_atlas, D_atlas,
M_cfdna, D_cfdna, n_unknown_tissues=args.n_unknown_tissues)`.  The parsed
`args.beta` is never forwarded, so the constructor's `beta` argument is
absent whatever value the CLI received. -/
def runScriptEngine (_cliBeta : ℚ) (nUnknown : ℕ) : EngineConfig :=
  mkEngineConfig none nUnknown

/-- The exponent used by the objective's per-cell weight
(model.py line 165: `(X_depths / sum) ** self.beta`). -/
def objectiveBeta (cfg : EngineConfig) : ℚ := cfg.beta

/-- Claim C10 describes behaviour the code does not implement: run.py parses
`-beta` (default 0.5, accepted only when ≥ 0) but does not forward it to the
`MetDecode` constructor, so the objective's coverage-weighting exponent is
the engine default 1.0 regardless of the CLI-supplied value — in particular
`-beta 0.0` still yields exponent 1, and even the CLI default 0.5 is not
what the engine uses. -/
theorem C10_beta_not_forwarded :
    (∀ b : ℚ, ∀ n : ℕ, objectiveBeta (runScriptEngine b n) = 1) ∧
    objectiveBeta (runScriptEngine 0 0) ≠ 0 ∧
    objectiveBeta (runScriptEngine cliBetaDefault 0) ≠ cliBetaDefault := by
  refine ⟨fun b n => rfl, ?_, ?_⟩ <;>
    norm_num [objectiveBeta, runScriptEngine, mkEngineConfig, cliBetaDefault]

end MetDecode
